import Mathlib

/-!
Shallow embedding of the Mononoke path model (`mononoke-types/src/path.rs`)
and the changeset envelope (`mercurial/src/envelope/changeset_envelope.rs`),
with proofs about path validation, the path-conflict-free check, and the
wire/blob round-trips.

Bytes are modelled as `List Nat`; the byte values that matter to the code
are 0 (NUL), 1, 10 (newline) and 47 (the separator).
-/

namespace Mononoke

/-- Byte strings, as used throughout the path and envelope code. -/
abbrev Bytes := List Nat

/-- An element of a path (`MPathElement(Vec<u8>)` in `path.rs`). -/
structure MPathElement where
  bytes : Bytes
deriving DecidableEq

/-- A path: a sequence of elements (`MPath { elements: Vec<MPathElement> }`). -/
structure MPath where
  elements : List MPathElement
deriving DecidableEq

/-- Error values produced by the path code (`ErrorKind` in `errors.rs`).
`invalidPath` carries the offending input and a reason, `invalidThrift`
the structure name and detail, `notPathConflictFree` the two offending
paths. -/
inductive ErrorKind where
  | invalidPath (input : Bytes) (reason : String)
  | invalidThrift (structName : String) (detail : String)
  | notPathConflictFree (ancestor descendant : MPath)
deriving DecidableEq

/-- Wire form of a path element (`thrift::MPathElement(Vec<u8>)`). -/
structure ThriftMPathElement where
  bytes : Bytes
deriving DecidableEq

/-- Wire form of a path (`thrift::MPath(Vec<thrift::MPathElement>)`). -/
structure ThriftMPath where
  elements : List ThriftMPathElement
deriving DecidableEq

/-- The validation in `MPathElement::verify`: rejects empty input and the
byte values 0, 1, 47 (the separator) and 10 (newline), in that order. -/
def MPathElement.verify (p : Bytes) : Except ErrorKind Unit :=
  if p.isEmpty then
    .error (.invalidPath p "path elements cannot be empty")
  else if p.contains 0 then
    .error (.invalidPath p "path elements cannot contain NUL")
  else if p.contains 1 then
    .error (.invalidPath p "path elements cannot contain byte 1")
  else if p.contains 47 then
    .error (.invalidPath p "path elements cannot contain the separator")
  else if p.contains 10 then
    .error (.invalidPath p "path elements cannot contain newline")
  else
    .ok ()

/-- The public constructor `MPathElement::new`. -/
def MPathElement.new (element : Bytes) : Except ErrorKind MPathElement :=
  match MPathElement.verify element with
  | .ok () => .ok ⟨element⟩
  | .error e => .error e

/-- The wire decoder `MPathElement::from_thrift`: same validation, with the
failure wrapped in an `InvalidThrift` context. -/
def MPathElement.from_thrift (element : ThriftMPathElement) : Except ErrorKind MPathElement :=
  match MPathElement.verify element.bytes with
  | .ok () => .ok ⟨element.bytes⟩
  | .error _ => .error (.invalidThrift "MPathElement" "invalid path element")

/-- The wire encoder `MPathElement::into_thrift`. -/
def MPathElement.into_thrift (e : MPathElement) : ThriftMPathElement :=
  ⟨e.bytes⟩

/-- The validation in `MPath::verify`: rejects the byte values 0, 1 and 10
anywhere in the raw input. -/
def MPath.verify (p : Bytes) : Except ErrorKind Unit :=
  if p.contains 0 then
    .error (.invalidPath p "paths cannot contain NUL")
  else if p.contains 1 then
    .error (.invalidPath p "paths cannot contain byte 1")
  else if p.contains 10 then
    .error (.invalidPath p "paths cannot contain newline")
  else
    .ok ()

/-- The element list built inside `MPath::new`: split the input on the
separator byte 47 and drop the empty segments. -/
def path_segments (p : Bytes) : List MPathElement :=
  ((p.splitOn 47).filter (fun e => !e.isEmpty)).map MPathElement.mk

/-- The public constructor `MPath::new`: verify the raw bytes, split on the
separator, drop empty segments, and fail if no segment remains. -/
def MPath.new (p : Bytes) : Except ErrorKind MPath :=
  match MPath.verify p with
  | .error e => .error e
  | .ok () =>
    let elements := path_segments p
    if elements.isEmpty then
      .error (.invalidPath p "path cannot be empty")
    else
      .ok ⟨elements⟩

/-- The wire decoder `MPath::from_thrift`: decode each element, propagating
the first failure. Note that it performs no emptiness check. -/
def MPath.from_thrift (mpath : ThriftMPath) : Except ErrorKind MPath :=
  match mpath.elements.mapM MPathElement.from_thrift with
  | .ok elements => .ok ⟨elements⟩
  | .error e => .error e

/-- The wire encoder `MPath::into_thrift`. -/
def MPath.into_thrift (p : MPath) : ThriftMPath :=
  ⟨p.elements.map MPathElement.into_thrift⟩

/-- The number of components of a path (`MPath::num_components`). -/
def MPath.num_components (p : MPath) : Nat :=
  p.elements.length

/-- The count of leading components equal pairwise
(`MPath::common_components`, a zip / take-while / count). -/
def MPath.common_components (p : MPath) (other : List MPathElement) : Nat :=
  ((p.elements.zip other).takeWhile (fun x => x.1 == x.2)).length

/-- Whether `p` is a path prefix of `other` (`MPath::is_prefix_of`):
true iff the common-component count equals the component count of `p`. -/
def MPath.is_prefix_of (p : MPath) (other : MPath) : Bool :=
  p.common_components other.elements == p.num_components

/-- The canonical byte form of a path (`MPath::to_vec`): the elements
joined by single separator bytes. -/
def MPath.to_vec (p : MPath) : Bytes :=
  List.intercalate [47] (p.elements.map MPathElement.bytes)

/-- The byte length of a path (`MPath::len`): the component-count minus one
separators plus the sum of the element lengths. (In the source the
subtraction is on `usize`; here it is `Nat` truncated subtraction.) -/
def MPath.len (p : MPath) : Nat :=
  (p.elements.length - 1) + (p.elements.map (fun e => e.bytes.length)).sum

/-- The `DOT` element of the source (`lazy_static`): the single byte `.`. -/
def DOT : MPathElement := ⟨[46]⟩

/-- The `DOTDOT` element of the source (`lazy_static`): the bytes `..`. -/
def DOTDOT : MPathElement := ⟨[46, 46]⟩

/-- `MPath::join`: append the given elements to this path, skipping any
zero-length elements. -/
def MPath.join (p : MPath) (another : List MPathElement) : MPath :=
  ⟨p.elements ++ another.filter (fun e => !e.bytes.isEmpty)⟩

/-- `MPath::basename`: the final component. The source `expect`s
non-emptiness (unreachable for constructed paths); the empty case is
modelled as `none`. -/
def MPath.basename (p : MPath) : Option MPathElement :=
  p.elements.getLast?

/-- `MPath::take_prefix_components`: `0` components yields `None`, asking
for more components than the path has is an error, otherwise the first
`n` components as a new path. -/
def MPath.take_prefix_components (p : MPath) (components : Nat) :
    Except String (Option MPath) :=
  if components = 0 then .ok none
  else if components > p.num_components then
    .error "taking more components than the path has"
  else .ok (some ⟨p.elements.take components⟩)

/-- `MPath::split_dirname`: the last component plus, when more than one
component exists, the leading components as a path. The source `expect`s
non-emptiness; the empty case is modelled as `none`. -/
def MPath.split_dirname (p : MPath) : Option (Option MPath × MPathElement) :=
  match p.elements.getLast? with
  | none => none
  | some filename =>
    if p.elements.dropLast.isEmpty then some (none, filename)
    else some (some ⟨p.elements.dropLast⟩, filename)

/-- The loop of `check_pcf`: scan the pairs in order keeping the most
recent changed path; fail as soon as that path is a prefix of the current
one. -/
def check_pcf_loop (last : Option MPath) : List (MPath × Bool) → Except ErrorKind Unit
  | [] => .ok ()
  | (path, is_changed) :: rest =>
    match last with
    | some lc =>
      if lc.is_prefix_of path then
        .error (.notPathConflictFree lc path)
      else
        check_pcf_loop (if is_changed then some path else some lc) rest
    | none => check_pcf_loop (if is_changed then some path else none) rest

/-- The path-conflict-freedom check `check_pcf` over a sorted list of
`(MPath, is_changed)` pairs. -/
def check_pcf (sorted_paths : List (MPath × Bool)) : Except ErrorKind Unit :=
  check_pcf_loop none sorted_paths

/-- Strict lexicographic order on byte strings, as in the derived `Ord` of
`Vec<u8>`. -/
def bytesLt : Bytes → Bytes → Bool
  | _, [] => false
  | [], _ :: _ => true
  | a :: xs, b :: ys => decide (a < b) || (a == b && bytesLt xs ys)

/-- The derived `Ord` of `MPathElement`: lexicographic on the bytes. -/
def MPathElement.lt (x y : MPathElement) : Bool :=
  bytesLt x.bytes y.bytes

/-- Strict lexicographic order on element lists, as in the derived `Ord`
of `Vec<MPathElement>`. -/
def elemsLt : List MPathElement → List MPathElement → Bool
  | _, [] => false
  | [], _ :: _ => true
  | x :: xs, y :: ys => MPathElement.lt x y || (x == y && elemsLt xs ys)

/-- The derived `Ord` of `MPath`: lexicographic over the element list. -/
def MPath.lt (p q : MPath) : Bool :=
  elemsLt p.elements q.elements

/-- Errors of the envelope decode paths: a hash of the wrong length, a
missing `contents` field (wrapped in an `InvalidThrift` context in the
source), or a framing failure of the blob codec
(`BlobDeserializeError`). -/
inductive EnvelopeError where
  | invalidHashLength
  | missingContents
  | blobDeserialize
deriving DecidableEq

/-- Modelled from the spec: `HgNodeHash` (defined in `mercurial-types`,
not present under `src/`) is a fixed-length 20-byte cryptographic hash
(§6: `WireHash(20-byte ... value)`). -/
structure HgNodeHash where
  bytes : Bytes
  len20 : bytes.length = 20
deriving DecidableEq

/-- Modelled from the spec: `HgNodeHash::from_thrift` decodes a wire hash
and "fails if not exactly the fixed hash length". -/
def HgNodeHash.from_thrift (b : Bytes) : Except EnvelopeError HgNodeHash :=
  if h : b.length = 20 then .ok ⟨b, h⟩ else .error .invalidHashLength

/-- Modelled from the spec: `HgNodeHash::from_thrift_opt` decodes an
optional wire hash, propagating the length failure. -/
def HgNodeHash.from_thrift_opt (o : Option Bytes) : Except EnvelopeError (Option HgNodeHash) :=
  match o with
  | none => .ok none
  | some b => (HgNodeHash.from_thrift b).map some

/-- Modelled from the spec: `HgNodeHash::into_thrift` emits the raw
20 bytes, the lossless inverse of the decode. -/
def HgNodeHash.into_thrift (h : HgNodeHash) : Bytes :=
  h.bytes

/-- Wire form of an envelope (`thrift::HgChangesetEnvelope`): required
`node_id`, optional parent hashes, optional `contents` payload. -/
structure ThriftHgChangesetEnvelope where
  node_id : Bytes
  p1 : Option Bytes
  p2 : Option Bytes
  contents : Option Bytes
deriving DecidableEq

/-- The mutable builder `HgChangesetEnvelopeMut`. -/
structure HgChangesetEnvelopeMut where
  node_id : HgNodeHash
  p1 : Option HgNodeHash
  p2 : Option HgNodeHash
  contents : Bytes
deriving DecidableEq

/-- The frozen envelope `HgChangesetEnvelope`, wrapping the builder. -/
structure HgChangesetEnvelope where
  inner : HgChangesetEnvelopeMut
deriving DecidableEq

/-- `HgChangesetEnvelopeMut::freeze`: wrap without validation. -/
def HgChangesetEnvelopeMut.freeze (m : HgChangesetEnvelopeMut) : HgChangesetEnvelope :=
  ⟨m⟩

/-- `HgChangesetEnvelope::into_mut`: unwrap without modification. -/
def HgChangesetEnvelope.into_mut (e : HgChangesetEnvelope) : HgChangesetEnvelopeMut :=
  e.inner

/-- `HgChangesetEnvelope::from_thrift`: decode `node_id`, the optional
parents, and the required `contents` (absent contents is an error,
distinct from an empty payload). -/
def HgChangesetEnvelope.from_thrift (fe : ThriftHgChangesetEnvelope) :
    Except EnvelopeError HgChangesetEnvelope :=
  match HgNodeHash.from_thrift fe.node_id with
  | .error e => .error e
  | .ok node_id =>
    match HgNodeHash.from_thrift_opt fe.p1 with
    | .error e => .error e
    | .ok p1 =>
      match HgNodeHash.from_thrift_opt fe.p2 with
      | .error e => .error e
      | .ok p2 =>
        match fe.contents with
        | none => .error .missingContents
        | some contents => .ok ⟨⟨node_id, p1, p2, contents⟩⟩

/-- `HgChangesetEnvelope::into_thrift`: emit every field, with `contents`
always present. -/
def HgChangesetEnvelope.into_thrift (e : HgChangesetEnvelope) : ThriftHgChangesetEnvelope :=
  ⟨e.inner.node_id.into_thrift,
   e.inner.p1.map HgNodeHash.into_thrift,
   e.inner.p2.map HgNodeHash.into_thrift,
   some e.inner.contents⟩

/-- Modelled from the spec: a length-prefixed encoding of one byte field,
standing in for the external compact binary codec (§6), which is
"an existing length-prefixed binary serialization library". -/
def encodeField (b : Bytes) : Bytes :=
  b.length :: b

/-- Modelled from the spec: encoding of an optional byte field (tag byte
then the payload). -/
def encodeOptField : Option Bytes → Bytes
  | none => [0]
  | some b => 1 :: encodeField b

/-- Modelled from the spec: decoding of one length-prefixed byte field;
fails (framing error) when the input is too short. -/
def decodeField (input : Bytes) : Except EnvelopeError (Bytes × Bytes) :=
  match input with
  | [] => .error .blobDeserialize
  | n :: rest =>
    if n ≤ rest.length then .ok (rest.take n, rest.drop n)
    else .error .blobDeserialize

/-- Modelled from the spec: decoding of an optional byte field. -/
def decodeOptField (input : Bytes) : Except EnvelopeError (Option Bytes × Bytes) :=
  match input with
  | [] => .error .blobDeserialize
  | 0 :: rest => .ok (none, rest)
  | (_ + 1) :: rest => (decodeField rest).map (fun x => (some x.1, x.2))

/-- Modelled from the spec: `compact_protocol::serialize` for the envelope
wire struct — the four fields in order, each length-prefixed. -/
def compact_serialize (t : ThriftHgChangesetEnvelope) : Bytes :=
  encodeField t.node_id ++ encodeOptField t.p1 ++ encodeOptField t.p2 ++
    encodeOptField t.contents

/-- Modelled from the spec: `compact_protocol::deserialize` for the
envelope wire struct, the exact inverse of the serializer; any framing
failure is a `BlobDeserializeError`. -/
def compact_deserialize (input : Bytes) : Except EnvelopeError ThriftHgChangesetEnvelope :=
  match decodeField input with
  | .error e => .error e
  | .ok (node_id, rest1) =>
    match decodeOptField rest1 with
    | .error e => .error e
    | .ok (p1, rest2) =>
      match decodeOptField rest2 with
      | .error e => .error e
      | .ok (p2, rest3) =>
        match decodeOptField rest3 with
        | .error e => .error e
        | .ok (contents, rest4) =>
          if rest4.isEmpty then
            .ok ⟨node_id, p1, p2, contents⟩
          else
            .error .blobDeserialize

/-- `HgChangesetEnvelope::into_blob`: serialize the wire struct. -/
def HgChangesetEnvelope.into_blob (e : HgChangesetEnvelope) : Bytes :=
  compact_serialize e.into_thrift

/-- `HgChangesetEnvelope::from_blob`: deserialize the wire struct, then
decode it. -/
def HgChangesetEnvelope.from_blob (blob : Bytes) : Except EnvelopeError HgChangesetEnvelope :=
  match compact_deserialize blob with
  | .error e => .error e
  | .ok t => HgChangesetEnvelope.from_thrift t

/-- The path `foo` (bytes of `f`, `o`, `o`). -/
def fooPath : MPath := ⟨[⟨[102, 111, 111]⟩]⟩

/-- The path `foo/bar`. -/
def fooBarPath : MPath := ⟨[⟨[102, 111, 111]⟩, ⟨[98, 97, 114]⟩]⟩

/-- The path `foo1`. -/
def foo1Path : MPath := ⟨[⟨[102, 111, 111, 49]⟩]⟩

/-- A 20-byte hash value used in concrete instantiations. -/
def sampleHash : HgNodeHash := ⟨List.replicate 20 1, by simp⟩

/-- A concrete envelope used in concrete instantiations. -/
def sampleEnvelope : HgChangesetEnvelope :=
  ⟨⟨sampleHash, some sampleHash, none, [97, 98, 99]⟩⟩

/-! ## Validation lemmas for path construction -/

theorem MPathElement.verify_element_valid_iff (p : Bytes) :
    MPathElement.verify p = .ok () ↔
      ¬(p = [] ∨ 0 ∈ p ∨ 1 ∈ p ∨ 47 ∈ p ∨ 10 ∈ p) := by
  unfold MPathElement.verify
  split_ifs with h0 h1 h2 h3 h4 <;>
    simp_all [List.isEmpty_iff, List.elem_iff]

theorem MPath.verify_path_valid_iff (p : Bytes) :
    MPath.verify p = .ok () ↔ ¬(0 ∈ p ∨ 1 ∈ p ∨ 10 ∈ p) := by
  unfold MPath.verify
  split_ifs with h0 h1 h2 <;> simp_all [List.elem_iff]

theorem MPathElement.new_ok_iff (b : Bytes) :
    (∃ e, MPathElement.new b = .ok e) ↔
      ¬(b = [] ∨ 0 ∈ b ∨ 1 ∈ b ∨ 47 ∈ b ∨ 10 ∈ b) := by
  rw [← MPathElement.verify_element_valid_iff]
  unfold MPathElement.new
  constructor
  · rintro ⟨e, he⟩
    cases h : MPathElement.verify b with
    | ok u => cases u; rfl
    | error err => rw [h] at he; exact absurd he (by simp)
  · intro h
    rw [h]
    exact ⟨⟨b⟩, rfl⟩

theorem MPathElement.new_ok_bytes (b : Bytes) (e : MPathElement)
    (he : MPathElement.new b = .ok e) : e.bytes = b := by
  unfold MPathElement.new at he
  cases h : MPathElement.verify b with
  | ok u => cases u; rw [h] at he; cases he; rfl
  | error err => rw [h] at he; exact absurd he (by simp)

theorem MPath.new_ok_exists_iff (p : Bytes) :
    (∃ q, MPath.new p = .ok q) ↔
      (¬ 0 ∈ p ∧ ¬ 1 ∈ p ∧ ¬ 10 ∈ p ∧ path_segments p ≠ []) := by
  have hv := MPath.verify_path_valid_iff p
  constructor
  · rintro ⟨q, hq⟩
    unfold MPath.new at hq
    cases h : MPath.verify p with
    | error err => rw [h] at hq; exact absurd hq (by simp)
    | ok u =>
      cases u
      rw [h] at hq
      simp only at hq
      have hcond := hv.mp h
      push_neg at hcond
      refine ⟨hcond.1, hcond.2.1, hcond.2.2, ?_⟩
      intro hseg
      rw [hseg] at hq
      exact absurd hq (by simp)
  · rintro ⟨h0, h1, h10, hseg⟩
    have h : MPath.verify p = .ok () := hv.mpr (by tauto)
    refine ⟨⟨path_segments p⟩, ?_⟩
    unfold MPath.new
    rw [h]
    simp [hseg]

theorem MPath.new_ok_elements (p : Bytes) (q : MPath)
    (hq : MPath.new p = .ok q) : q.elements = path_segments p := by
  unfold MPath.new at hq
  cases h : MPath.verify p with
  | error err => rw [h] at hq; exact absurd hq (by simp)
  | ok u =>
    cases u
    rw [h] at hq
    simp only at hq
    by_cases hseg : (path_segments p).isEmpty
    · rw [if_pos hseg] at hq; exact absurd hq (by simp)
    · rw [if_neg hseg] at hq; cases hq; rfl

theorem MPath.new_eq_ok_segments (p : Bytes)
    (h0 : ¬ 0 ∈ p) (h1 : ¬ 1 ∈ p) (h10 : ¬ 10 ∈ p) (hseg : path_segments p ≠ []) :
    MPath.new p = .ok ⟨path_segments p⟩ := by
  obtain ⟨q, hq⟩ := (MPath.new_ok_exists_iff p).mpr ⟨h0, h1, h10, hseg⟩
  have he := MPath.new_ok_elements p q hq
  have hq' : q = ⟨path_segments p⟩ := by cases q; simpa using he
  rw [← hq']
  exact hq

theorem length_intercalate_sep (l : List Bytes) (h : l ≠ []) :
    (List.intercalate [47] l).length = (l.map List.length).sum + (l.length - 1) := by
  induction l with
  | nil => cases h rfl
  | cons x xs ih =>
    cases xs with
    | nil => simp [List.intercalate]
    | cons y ys =>
      have hstep : List.intercalate [47] (x :: y :: ys)
          = x ++ 47 :: List.intercalate [47] (y :: ys) := by
        simp [List.intercalate]
      rw [hstep]
      have := ih (by simp)
      simp only [List.length_append, List.length_cons, List.map_cons, List.sum_cons,
        this]
      omega

/-! ## Lexicographic order lemmas -/

theorem bytesLt_irrefl (b : Bytes) : bytesLt b b = false := by
  induction b with
  | nil => rfl
  | cons a xs ih => simp [bytesLt, ih]

theorem bytesLt_asymm (x y : Bytes) (hxy : bytesLt x y = true) (hyx : bytesLt y x = true) :
    False := by
  induction x generalizing y with
  | nil => cases y <;> simp [bytesLt] at hxy hyx
  | cons a xs ih =>
    cases y with
    | nil => simp [bytesLt] at hxy
    | cons b ys =>
      simp only [bytesLt, Bool.or_eq_true, Bool.and_eq_true, decide_eq_true_eq,
        beq_iff_eq] at hxy hyx
      rcases hxy with h1 | ⟨hab, h1⟩ <;> rcases hyx with h2 | ⟨hba, h2⟩
      · omega
      · omega
      · omega
      · exact ih ys h1 h2

theorem MPathElement.lt_irrefl (x : MPathElement) : MPathElement.lt x x = false :=
  bytesLt_irrefl x.bytes

theorem MPathElement.lt_asymm (x y : MPathElement)
    (hxy : MPathElement.lt x y = true) (hyx : MPathElement.lt y x = true) : False :=
  bytesLt_asymm x.bytes y.bytes hxy hyx

theorem elemsLt_irrefl (l : List MPathElement) : elemsLt l l = false := by
  induction l with
  | nil => rfl
  | cons x xs ih => simp [elemsLt, ih, MPathElement.lt_irrefl]

theorem elemsLt_asymm (x y : List MPathElement)
    (hxy : elemsLt x y = true) (hyx : elemsLt y x = true) : False := by
  induction x generalizing y with
  | nil => cases y <;> simp [elemsLt] at hxy hyx
  | cons a xs ih =>
    cases y with
    | nil => simp [elemsLt] at hxy
    | cons b ys =>
      simp only [elemsLt, Bool.or_eq_true, Bool.and_eq_true, beq_iff_eq] at hxy hyx
      rcases hxy with h1 | ⟨hab, h1⟩ <;> rcases hyx with h2 | ⟨hba, h2⟩
      · exact MPathElement.lt_asymm a b h1 h2
      · subst hba; simp [MPathElement.lt_irrefl] at h1
      · subst hab; simp [MPathElement.lt_irrefl] at h2
      · exact ih ys h1 h2

/-- In the lexicographic order, anything strictly between a list and an
extension of its prefix also extends that prefix. This is the "key
observation" in the comment inside `check_pcf`. -/
theorem elemsLt_between (xs ys zs : List MPathElement)
    (hpre : xs <+: zs) (h1 : elemsLt xs ys = true) (h2 : elemsLt ys zs = true) :
    xs <+: ys := by
  induction xs generalizing ys zs with
  | nil => exact List.nil_prefix
  | cons a xs ih =>
    cases ys with
    | nil => simp [elemsLt] at h1
    | cons b ys =>
      obtain ⟨c, zs', rfl, hcz⟩ : ∃ c zs', zs = c :: zs' ∧ a = c ∧ xs <+: zs' := by
        cases zs with
        | nil => exact absurd hpre (by simp)
        | cons c zs' =>
          exact ⟨c, zs', rfl, (List.cons_prefix_cons.mp hpre).1,
            (List.cons_prefix_cons.mp hpre).2⟩
      obtain ⟨rfl, hxz⟩ := hcz
      simp only [elemsLt, Bool.or_eq_true, Bool.and_eq_true, beq_iff_eq] at h1 h2
      rcases h1 with hab | ⟨hab, h1'⟩
      · rcases h2 with hba | ⟨hba, h2'⟩
        · exact (MPathElement.lt_asymm a b hab hba).elim
        · subst hba; simp [MPathElement.lt_irrefl] at hab
      · subst hab
        rcases h2 with hba | ⟨_, h2'⟩
        · simp [MPathElement.lt_irrefl] at hba
        · exact List.cons_prefix_cons.mpr ⟨rfl, ih ys zs' hxz h1' h2'⟩

theorem common_components_eq_length_iff (xs ys : List MPathElement) :
    (((xs.zip ys).takeWhile (fun x => x.1 == x.2)).length = xs.length) ↔ xs <+: ys := by
  induction xs generalizing ys with
  | nil => simp
  | cons a xs ih =>
    cases ys with
    | nil => simp
    | cons b ys =>
      by_cases hab : a = b
      · subst hab
        simp only [List.zip_cons_cons, List.takeWhile_cons, beq_self_eq_true, if_pos,
          List.length_cons, List.cons_prefix_cons, true_and]
        constructor
        · intro h; exact (ih ys).mp (Nat.succ_injective h)
        · intro h; exact congrArg Nat.succ ((ih ys).mpr h)
      · have : ((a, b) :: xs.zip ys).takeWhile (fun x => x.1 == x.2) = [] := by
          simp [List.takeWhile_cons, hab]
        simp [List.zip_cons_cons, this, List.cons_prefix_cons, hab]

/-- `is_prefix_of` computes exactly the component-wise prefix relation. -/
theorem is_prefix_of_iff (p q : MPath) :
    p.is_prefix_of q = true ↔ p.elements <+: q.elements := by
  unfold MPath.is_prefix_of MPath.common_components MPath.num_components
  rw [beq_iff_eq]
  exact common_components_eq_length_iff p.elements q.elements

theorem MPath.lt_ne (p q : MPath) (h : MPath.lt p q = true) : p ≠ q := by
  intro he
  subst he
  rw [MPath.lt, elemsLt_irrefl] at h
  cases h

/-! ## The conflict-freedom scan -/

theorem check_pcf_loop_ok_sound :
    ∀ (l : List (MPath × Bool)) (last : Option MPath),
    List.Pairwise (fun a b => MPath.lt a.1 b.1 = true) l →
    (∀ lc, last = some lc → ∀ x ∈ l, MPath.lt lc x.1 = true) →
    check_pcf_loop last l = Except.ok () →
    (∀ lc, last = some lc → ∀ x ∈ l, ¬ lc.elements <+: x.1.elements) ∧
      List.Pairwise
        (fun a b => a.2 = true → ¬(a.1.elements <+: b.1.elements ∧ a.1 ≠ b.1)) l := by
  intro l
  induction l with
  | nil => intro last _ _ _; exact ⟨by simp, List.Pairwise.nil⟩
  | cons pc rest ih =>
    obtain ⟨p, c⟩ := pc
    intro last hsorted hlast hok
    rw [List.pairwise_cons] at hsorted
    obtain ⟨hhead, htail⟩ := hsorted
    cases last with
    | none =>
      rw [check_pcf_loop] at hok
      have hlast' : ∀ lc, (if c then some p else none) = some lc →
          ∀ x ∈ rest, MPath.lt lc x.1 = true := by
        intro lc hlc x hx
        cases c with
        | true => cases hlc; exact hhead x hx
        | false => cases hlc
      obtain ⟨ih1, ih2⟩ := ih (if c then some p else none) htail hlast' hok
      refine ⟨by simp, ?_⟩
      rw [List.pairwise_cons]
      refine ⟨?_, ih2⟩
      intro b hb hc hcontra
      cases c with
      | true => exact ih1 p rfl b hb hcontra.1
      | false => cases hc
    | some lc =>
      rw [check_pcf_loop] at hok
      by_cases hpre : lc.is_prefix_of p = true
      · rw [if_pos hpre] at hok; cases hok
      · rw [if_neg hpre] at hok
        have hnp : ¬ lc.elements <+: p.elements := by
          intro hx
          exact hpre ((is_prefix_of_iff lc p).mpr hx)
        have hlast' : ∀ lc', (if c then some p else some lc) = some lc' →
            ∀ x ∈ rest, MPath.lt lc' x.1 = true := by
          intro lc' hlc' x hx
          cases c with
          | true => cases hlc'; exact hhead x hx
          | false => cases hlc'; exact hlast lc rfl x (List.mem_cons_of_mem _ hx)
        obtain ⟨ih1, ih2⟩ := ih (if c then some p else some lc) htail hlast' hok
        constructor
        · intro lc' hlc' x hx
          cases hlc'
          rcases List.mem_cons.mp hx with hx | hx
          · subst hx; exact hnp
          · intro hcontra
            have h1 : MPath.lt lc p = true := hlast lc rfl (p, c) (List.mem_cons_self _ _)
            have h2 : MPath.lt p x.1 = true := hhead x hx
            exact (fun hx2 => hpre ((is_prefix_of_iff lc p).mpr hx2))
              (elemsLt_between lc.elements p.elements x.1.elements hcontra h1 h2)
        · rw [List.pairwise_cons]
          refine ⟨?_, ih2⟩
          intro b hb hc hcontra
          cases c with
          | true => exact ih1 p rfl b hb hcontra.1
          | false => cases hc

theorem check_pcf_loop_ok_complete :
    ∀ (l : List (MPath × Bool)) (last : Option MPath),
    List.Pairwise (fun a b => MPath.lt a.1 b.1 = true) l →
    (∀ lc, last = some lc → ∀ x ∈ l, ¬ lc.elements <+: x.1.elements) →
    List.Pairwise
      (fun a b => a.2 = true → ¬(a.1.elements <+: b.1.elements ∧ a.1 ≠ b.1)) l →
    check_pcf_loop last l = Except.ok () := by
  intro l
  induction l with
  | nil => intro last _ _ _; cases last <;> rfl
  | cons pc rest ih =>
    obtain ⟨p, c⟩ := pc
    intro last hsorted hlast hfree
    rw [List.pairwise_cons] at hsorted hfree
    obtain ⟨hhead, htail⟩ := hsorted
    obtain ⟨hfhead, hftail⟩ := hfree
    have hlast' : ∀ lc, (if c then some p else last) = some lc →
        ∀ x ∈ rest, ¬ lc.elements <+: x.1.elements := by
      intro lc hlc x hx
      cases c with
      | true =>
        cases hlc
        intro hcontra
        exact hfhead x hx rfl ⟨hcontra, MPath.lt_ne p x.1 (hhead x hx)⟩
      | false =>
        simp only [if_neg Bool.false_ne_true] at hlc
        exact hlast lc hlc x (List.mem_cons_of_mem _ hx)
    cases last with
    | none =>
      rw [check_pcf_loop]
      exact ih (if c then some p else none) htail hlast' hftail
    | some lc =>
      rw [check_pcf_loop]
      have hnp : lc.is_prefix_of p = false := by
        rw [← Bool.not_eq_true]
        intro hx
        exact hlast lc rfl (p, c) (List.mem_cons_self _ _) ((is_prefix_of_iff lc p).mp hx)
      rw [if_neg (by rw [hnp]; exact Bool.false_ne_true)]
      exact ih (if c then some p else some lc) htail hlast' hftail

theorem check_pcf_loop_error_spec :
    ∀ (l : List (MPath × Bool)) (last : Option MPath) (a b : MPath),
    check_pcf_loop last l = Except.error (.notPathConflictFree a b) →
    (last = some a ∨ (a, true) ∈ l) ∧ (∃ c, (b, c) ∈ l) ∧ a.is_prefix_of b = true := by
  intro l
  induction l with
  | nil => intro last a b h; rw [check_pcf_loop] at h; cases h
  | cons pc rest ih =>
    obtain ⟨p, c⟩ := pc
    intro last a b h
    cases last with
    | none =>
      rw [check_pcf_loop] at h
      obtain ⟨h1, h2, h3⟩ := ih (if c then some p else none) a b h
      refine ⟨?_, ?_, h3⟩
      · rcases h1 with h1 | h1
        · cases c with
          | true =>
            right
            simp only [if_pos] at h1
            cases h1
            exact List.mem_cons_self _ _
          | false => simp at h1
        · exact Or.inr (List.mem_cons_of_mem _ h1)
      · obtain ⟨c', hc'⟩ := h2
        exact ⟨c', List.mem_cons_of_mem _ hc'⟩
    | some lc =>
      rw [check_pcf_loop] at h
      by_cases hpre : lc.is_prefix_of p = true
      · rw [if_pos hpre] at h
        simp only [Except.error.injEq, ErrorKind.notPathConflictFree.injEq] at h
        obtain ⟨rfl, rfl⟩ := h
        exact ⟨Or.inl rfl, ⟨c, List.mem_cons_self _ _⟩, hpre⟩
      · rw [if_neg hpre] at h
        obtain ⟨h1, h2, h3⟩ := ih (if c then some p else some lc) a b h
        refine ⟨?_, ?_, h3⟩
        · rcases h1 with h1 | h1
          · cases c with
            | true =>
              right
              simp only [if_pos] at h1
              cases h1
              exact List.mem_cons_self _ _
            | false =>
              simp only [if_neg Bool.false_ne_true] at h1
              exact Or.inl h1
          · exact Or.inr (List.mem_cons_of_mem _ h1)
        · obtain ⟨c', hc'⟩ := h2
          exact ⟨c', List.mem_cons_of_mem _ hc'⟩

/-! ## Envelope round-trip lemmas -/

theorem decodeField_encodeField (b rest : Bytes) :
    decodeField (encodeField b ++ rest) = .ok (b, rest) := by
  unfold encodeField decodeField
  simp only [List.cons_append]
  rw [if_pos (by simp)]
  rw [List.take_left, List.drop_left]

theorem decodeOptField_encodeOptField (o : Option Bytes) (rest : Bytes) :
    decodeOptField (encodeOptField o ++ rest) = .ok (o, rest) := by
  cases o with
  | none => rfl
  | some b =>
    unfold encodeOptField decodeOptField
    simp only [List.cons_append]
    rw [decodeField_encodeField]
    rfl

theorem decodeOptField_encodeOptField_nil (o : Option Bytes) :
    decodeOptField (encodeOptField o) = .ok (o, []) := by
  simpa using decodeOptField_encodeOptField o []

theorem compact_roundtrip (t : ThriftHgChangesetEnvelope) :
    compact_deserialize (compact_serialize t) = .ok t := by
  unfold compact_serialize compact_deserialize
  simp only [List.append_assoc, decodeField_encodeField, decodeOptField_encodeOptField,
    decodeOptField_encodeOptField_nil]
  rfl

theorem hash_from_thrift_into_thrift (h : HgNodeHash) :
    HgNodeHash.from_thrift h.into_thrift = .ok h := by
  unfold HgNodeHash.from_thrift HgNodeHash.into_thrift
  rw [dif_pos h.len20]

theorem hash_from_thrift_opt_map (o : Option HgNodeHash) :
    HgNodeHash.from_thrift_opt (o.map HgNodeHash.into_thrift) = .ok o := by
  cases o with
  | none => rfl
  | some h =>
    show Except.map some (HgNodeHash.from_thrift h.into_thrift) = Except.ok (some h)
    rw [hash_from_thrift_into_thrift]
    rfl

theorem hash_from_thrift_error (b : Bytes) (e : EnvelopeError)
    (h : HgNodeHash.from_thrift b = .error e) : e = .invalidHashLength := by
  unfold HgNodeHash.from_thrift at h
  by_cases hl : b.length = 20
  · rw [dif_pos hl] at h; cases h
  · rw [dif_neg hl] at h; cases h; rfl

theorem hash_from_thrift_opt_error (o : Option Bytes) (e : EnvelopeError)
    (h : HgNodeHash.from_thrift_opt o = .error e) : e = .invalidHashLength := by
  cases o with
  | none => cases h
  | some b =>
    revert h
    show Except.map some (HgNodeHash.from_thrift b) = _ → _
    cases hh : HgNodeHash.from_thrift b with
    | error e1 => intro h2; cases h2; exact hash_from_thrift_error _ _ hh
    | ok v => intro h2; cases h2

theorem envelope_from_thrift_into_thrift (e : HgChangesetEnvelope) :
    HgChangesetEnvelope.from_thrift e.into_thrift = .ok e := by
  unfold HgChangesetEnvelope.into_thrift HgChangesetEnvelope.from_thrift
  simp only [hash_from_thrift_into_thrift, hash_from_thrift_opt_map]

theorem envelope_from_blob_into_blob (e : HgChangesetEnvelope) :
    HgChangesetEnvelope.from_blob e.into_blob = .ok e := by
  unfold HgChangesetEnvelope.from_blob HgChangesetEnvelope.into_blob
  rw [compact_roundtrip]
  exact envelope_from_thrift_into_thrift e

theorem element_from_thrift_into_thrift (e : MPathElement)
    (h : MPathElement.verify e.bytes = .ok ()) :
    MPathElement.from_thrift e.into_thrift = .ok e := by
  unfold MPathElement.from_thrift MPathElement.into_thrift
  simp only [h]

theorem mapM_from_thrift_valid :
    ∀ l : List MPathElement, (∀ e ∈ l, MPathElement.verify e.bytes = .ok ()) →
    (l.map MPathElement.into_thrift).mapM MPathElement.from_thrift = .ok l := by
  intro l
  induction l with
  | nil => intro _; rfl
  | cons x xs ih =>
    intro h
    rw [List.map_cons, List.mapM_cons]
    rw [element_from_thrift_into_thrift x (h x (List.mem_cons_self _ _))]
    rw [ih (fun e he => h e (List.mem_cons_of_mem _ he))]
    rfl

theorem path_from_thrift_into_thrift (p : MPath)
    (h : ∀ e ∈ p.elements, MPathElement.verify e.bytes = .ok ()) :
    MPath.from_thrift p.into_thrift = .ok p := by
  unfold MPath.from_thrift MPath.into_thrift
  simp only [mapM_from_thrift_valid p.elements h]

/-! ## Claim theorems -/

/-- C1: for a list of `(MPath, is_changed)` pairs sorted in strictly
ascending `MPath` order, `check_pcf` returns `Ok` if and only if no pair
with `is_changed = true` has a path that is a strict component-wise
prefix of the path of some later pair, regardless of that later pair's
changed flag. -/
theorem check_pcf_ok_iff_conflict_free (l : List (MPath × Bool))
    (hsorted : List.Pairwise (fun a b => MPath.lt a.1 b.1 = true) l) :
    check_pcf l = Except.ok () ↔
      List.Pairwise
        (fun a b => a.2 = true → ¬(a.1.elements <+: b.1.elements ∧ a.1 ≠ b.1)) l := by
  constructor
  · intro h
    exact (check_pcf_loop_ok_sound l none hsorted (by simp) h).2
  · intro h
    exact check_pcf_loop_ok_complete l none hsorted (by simp) h

/-- C1, instantiated: the sorted list `[(foo, true), (foo1, true)]` is
conflict-free, so `check_pcf` accepts it. -/
theorem check_pcf_ok_iff_conflict_free_witness :
    check_pcf [(fooPath, true), (foo1Path, true)] = Except.ok () :=
  (check_pcf_ok_iff_conflict_free [(fooPath, true), (foo1Path, true)]
    (by decide)).mpr (by decide)

/-- C2: contrary to the claimed invariant, `MPath::from_thrift` accepts a
wire path with zero elements and yields a zero-element `MPath` (whose
`num_components` is 0), instead of failing. -/
theorem from_thrift_accepts_empty_wire_path :
    MPath.from_thrift ⟨[]⟩ = Except.ok ⟨[]⟩ ∧ (MPath.mk []).num_components = 0 :=
  ⟨rfl, rfl⟩

/-- C3: wire round-trips for constructed (valid) `MPathElement` and
`MPath` values, and the blob round-trip for every `HgChangesetEnvelope`. -/
theorem wire_and_blob_round_trips :
    (∀ e : MPathElement, MPathElement.verify e.bytes = .ok () →
      MPathElement.from_thrift e.into_thrift = .ok e)
    ∧ (∀ p : MPath, (∀ e ∈ p.elements, MPathElement.verify e.bytes = .ok ()) →
      MPath.from_thrift p.into_thrift = .ok p)
    ∧ (∀ e : HgChangesetEnvelope, HgChangesetEnvelope.from_blob e.into_blob = .ok e) :=
  ⟨element_from_thrift_into_thrift, path_from_thrift_into_thrift,
    envelope_from_blob_into_blob⟩

/-- C3, instantiated: the round-trips evaluated on the element `f`, the
path `foo` and a concrete envelope. -/
theorem wire_and_blob_round_trips_witness :
    MPathElement.from_thrift (MPathElement.mk [102]).into_thrift = .ok ⟨[102]⟩
    ∧ MPath.from_thrift fooPath.into_thrift = .ok fooPath
    ∧ HgChangesetEnvelope.from_blob sampleEnvelope.into_blob = .ok sampleEnvelope :=
  ⟨wire_and_blob_round_trips.1 ⟨[102]⟩ rfl,
   wire_and_blob_round_trips.2.1 fooPath
     (by intro e he; simp only [fooPath] at he; rw [List.mem_singleton] at he;
         subst he; rfl),
   wire_and_blob_round_trips.2.2 sampleEnvelope⟩

/-- C4: envelope decoding fails whenever `contents` is entirely absent,
even with well-formed `node_id`/`p1`/`p2`; it fails (with the hash-length
error) whenever `node_id` or a present parent hash is not exactly 20
bytes; and a present-but-empty `contents` payload is accepted. -/
theorem envelope_decode_error_conditions :
    (∀ t : ThriftHgChangesetEnvelope, t.contents = none →
      ∃ err, HgChangesetEnvelope.from_thrift t = .error err)
    ∧ (∀ t : ThriftHgChangesetEnvelope, t.node_id.length ≠ 20 →
      HgChangesetEnvelope.from_thrift t = .error .invalidHashLength)
    ∧ (∀ (t : ThriftHgChangesetEnvelope) (b : Bytes), t.p1 = some b → b.length ≠ 20 →
      HgChangesetEnvelope.from_thrift t = .error .invalidHashLength)
    ∧ (∀ (t : ThriftHgChangesetEnvelope) (b : Bytes), t.p2 = some b → b.length ≠ 20 →
      HgChangesetEnvelope.from_thrift t = .error .invalidHashLength)
    ∧ (∀ t : ThriftHgChangesetEnvelope, t.node_id.length = 20 →
      (∀ b, t.p1 = some b → b.length = 20) → (∀ b, t.p2 = some b → b.length = 20) →
      t.contents = some [] →
      ∃ env, HgChangesetEnvelope.from_thrift t = .ok env ∧ env.inner.contents = []) := by
  refine ⟨?_, ?_, ?_, ?_, ?_⟩
  · intro t hc
    unfold HgChangesetEnvelope.from_thrift
    cases hn : HgNodeHash.from_thrift t.node_id with
    | error e => exact ⟨e, rfl⟩
    | ok nid =>
      cases hp1 : HgNodeHash.from_thrift_opt t.p1 with
      | error e => exact ⟨e, rfl⟩
      | ok p1 =>
        cases hp2 : HgNodeHash.from_thrift_opt t.p2 with
        | error e => exact ⟨e, rfl⟩
        | ok p2 => exact ⟨.missingContents, by rw [hc]⟩
  · intro t h
    unfold HgChangesetEnvelope.from_thrift HgNodeHash.from_thrift
    rw [dif_neg h]
  · intro t b hb hlen
    unfold HgChangesetEnvelope.from_thrift
    cases hn : HgNodeHash.from_thrift t.node_id with
    | error e => rw [hash_from_thrift_error _ _ hn]
    | ok nid =>
      have : HgNodeHash.from_thrift_opt t.p1 = .error .invalidHashLength := by
        rw [hb]
        show Except.map some (HgNodeHash.from_thrift b) = _
        unfold HgNodeHash.from_thrift
        rw [dif_neg hlen]
        rfl
      rw [this]
  · intro t b hb hlen
    unfold HgChangesetEnvelope.from_thrift
    cases hn : HgNodeHash.from_thrift t.node_id with
    | error e => rw [hash_from_thrift_error _ _ hn]
    | ok nid =>
      cases hp1 : HgNodeHash.from_thrift_opt t.p1 with
      | error e => rw [hash_from_thrift_opt_error _ _ hp1]
      | ok p1 =>
        have : HgNodeHash.from_thrift_opt t.p2 = .error .invalidHashLength := by
          rw [hb]
          show Except.map some (HgNodeHash.from_thrift b) = _
          unfold HgNodeHash.from_thrift
          rw [dif_neg hlen]
          rfl
        rw [this]
  · intro t hn hp1 hp2 hc
    unfold HgChangesetEnvelope.from_thrift HgNodeHash.from_thrift
    rw [dif_pos hn]
    have h1 : ∀ (o : Option Bytes), (∀ b, o = some b → b.length = 20) →
        ∃ v, HgNodeHash.from_thrift_opt o = .ok v := by
      intro o ho
      cases o with
      | none => exact ⟨none, rfl⟩
      | some b =>
        refine ⟨some ⟨b, ho b rfl⟩, ?_⟩
        show Except.map some (HgNodeHash.from_thrift b) = _
        unfold HgNodeHash.from_thrift
        rw [dif_pos (ho b rfl)]
        rfl
    obtain ⟨v1, hv1⟩ := h1 t.p1 hp1
    obtain ⟨v2, hv2⟩ := h1 t.p2 hp2
    rw [hv1, hv2, hc]
    exact ⟨_, rfl, rfl⟩

/-- C4, instantiated: a missing-contents envelope is rejected, a 19-byte
`node_id` is rejected, and a present-but-empty payload is accepted. -/
theorem envelope_decode_error_conditions_witness :
    (∃ err, HgChangesetEnvelope.from_thrift
      ⟨List.replicate 20 1, none, none, none⟩ = .error err)
    ∧ HgChangesetEnvelope.from_thrift
      ⟨List.replicate 19 1, none, none, some [97]⟩ = .error .invalidHashLength
    ∧ (∃ env, HgChangesetEnvelope.from_thrift
      ⟨List.replicate 20 1, none, none, some []⟩ = .ok env ∧ env.inner.contents = []) :=
  ⟨envelope_decode_error_conditions.1 _ rfl,
   envelope_decode_error_conditions.2.1 _ (by decide),
   envelope_decode_error_conditions.2.2.2.2 _ (by decide)
     (by intro b h; cases h) (by intro b h; cases h) rfl⟩

/-- C5: `MPathElement::new` fails exactly when the input is empty or
contains a byte equal to 0, 1, 47 (ASCII `/`) or 10 (ASCII newline); on
any other input it succeeds and the element's bytes equal the input
unchanged. -/
theorem path_element_new_characterisation (b : Bytes) :
    ((∃ e, MPathElement.new b = .ok e) ↔
      ¬(b = [] ∨ 0 ∈ b ∨ 1 ∈ b ∨ 47 ∈ b ∨ 10 ∈ b))
    ∧ (∀ e, MPathElement.new b = .ok e → e.bytes = b) :=
  ⟨MPathElement.new_ok_iff b, MPathElement.new_ok_bytes b⟩

/-- C5, instantiated: the single byte `f` is accepted verbatim. -/
theorem path_element_new_characterisation_witness :
    ∃ e, MPathElement.new [102] = Except.ok e ∧ e.bytes = [102] := by
  obtain ⟨e, he⟩ := (path_element_new_characterisation [102]).1.mpr (by decide)
  exact ⟨e, he, (path_element_new_characterisation [102]).2 e he⟩

/-- C6: `MPath::new` succeeds exactly when the input contains none of the
bytes 0, 1 and 10 and splitting on 47 leaves at least one non-empty
segment; on success the components are exactly the non-empty segments in
order. -/
theorem path_new_characterisation (p : Bytes) :
    ((∃ q, MPath.new p = .ok q) ↔
      (¬ 0 ∈ p ∧ ¬ 1 ∈ p ∧ ¬ 10 ∈ p ∧ path_segments p ≠ []))
    ∧ (∀ q, MPath.new p = .ok q → q.elements = path_segments p) :=
  ⟨MPath.new_ok_exists_iff p, MPath.new_ok_elements p⟩

/-- C6, instantiated: `/foo//bar/` collapses to the components
`foo`, `bar`. -/
theorem path_new_characterisation_witness :
    ∃ q, MPath.new [47, 102, 111, 111, 47, 47, 98, 97, 114, 47] = Except.ok q
      ∧ q.elements = path_segments [47, 102, 111, 111, 47, 47, 98, 97, 114, 47] := by
  obtain ⟨q, hq⟩ :=
    (path_new_characterisation [47, 102, 111, 111, 47, 47, 98, 97, 114, 47]).1.mpr
      (by decide)
  exact ⟨q, hq,
    (path_new_characterisation [47, 102, 111, 111, 47, 47, 98, 97, 114, 47]).2 q hq⟩

/-- C7: for every non-empty `MPath`, `len` equals the byte length of the
canonical form `to_vec` (components joined by single separator bytes). -/
theorem path_len_eq_canonical_length (p : MPath) (h : p.elements ≠ []) :
    p.len = p.to_vec.length := by
  unfold MPath.len MPath.to_vec
  rw [length_intercalate_sep _ (by simpa using h)]
  simp [List.map_map, Function.comp_def]
  omega

/-- C7, instantiated on the two-component path `f/b`. -/
theorem path_len_eq_canonical_length_witness :
    (MPath.mk [⟨[102]⟩, ⟨[98]⟩]).len = (MPath.mk [⟨[102]⟩, ⟨[98]⟩]).to_vec.length :=
  path_len_eq_canonical_length ⟨[⟨[102]⟩, ⟨[98]⟩]⟩ (by decide)

/-- C8: whenever `check_pcf` fails it returns `NotPathConflictFree (a, b)`
where `a` is a changed path of the list that is a prefix of the later
path `b`; and on the concrete examples, `[(foo, true), (foo/bar, true)]`
fails with `NotPathConflictFree(foo, foo/bar)` while
`[(foo, false), (foo/bar, true)]`, `[(foo, true), (foo1, true)]` and the
empty input all succeed. -/
theorem check_pcf_failure_behaviour :
    (∀ (l : List (MPath × Bool)) (a b : MPath),
      check_pcf l = Except.error (.notPathConflictFree a b) →
      a.is_prefix_of b = true ∧ (a, true) ∈ l ∧ ∃ c, (b, c) ∈ l)
    ∧ MPath.new [102, 111, 111] = .ok fooPath
    ∧ MPath.new [102, 111, 111, 47, 98, 97, 114] = .ok fooBarPath
    ∧ MPath.new [102, 111, 111, 49] = .ok foo1Path
    ∧ check_pcf [(fooPath, true), (fooBarPath, true)]
        = Except.error (.notPathConflictFree fooPath fooBarPath)
    ∧ check_pcf [(fooPath, false), (fooBarPath, true)] = Except.ok ()
    ∧ check_pcf [(fooPath, true), (foo1Path, true)] = Except.ok ()
    ∧ check_pcf [] = Except.ok () := by
  refine ⟨?_, rfl, rfl, rfl, rfl, rfl, rfl, rfl⟩
  intro l a b h
  obtain ⟨h1, h2, h3⟩ := check_pcf_loop_error_spec l none a b h
  rcases h1 with h1 | h1
  · cases h1
  · exact ⟨h3, h1, h2⟩

/-- C8, instantiated: the failure on `[(foo, true), (foo/bar, true)]`
indeed carries a changed member that prefixes a member of the list. -/
theorem check_pcf_failure_behaviour_witness :
    fooPath.is_prefix_of fooBarPath = true
    ∧ (fooPath, true) ∈ [(fooPath, true), (fooBarPath, true)]
    ∧ ∃ c, (fooBarPath, c) ∈ [(fooPath, true), (fooBarPath, true)] :=
  check_pcf_failure_behaviour.1 [(fooPath, true), (fooBarPath, true)]
    fooPath fooBarPath rfl

/-- C9, counterexample to the claim as stated: the byte string `./\0`
(bytes 46, 47, 0) has `.` among its non-empty segments, yet `MPath::new`
fails on it because of the NUL byte. -/
theorem dot_segments_claim_counterexample :
    MPathElement.mk [46] ∈ path_segments [46, 47, 0]
    ∧ MPath.new [46, 47, 0]
        = Except.error (.invalidPath [46, 47, 0] "paths cannot contain NUL") :=
  ⟨by decide, rfl⟩

/-- C9 (amended): Path construction performs no dot normalization — for
every byte string free of the bytes 0, 1 and 10 whose non-empty segments
include `.` or `..`, `MPath::new` succeeds and keeps those segments
verbatim as ordinary components — and no Path operation resolves,
collapses or rejects `.` or `..` components: the element constructor and
wire decoder accept them, `join` preserves every non-empty component
(dots included) with its multiplicity, and `take_prefix_components`,
`basename` and `split_dirname` return the stored components verbatim,
dots included. -/
theorem dot_segments_kept_verbatim :
    (∀ p : Bytes, ¬ 0 ∈ p → ¬ 1 ∈ p → ¬ 10 ∈ p →
      (DOT ∈ path_segments p ∨ DOTDOT ∈ path_segments p) →
      MPath.new p = .ok ⟨path_segments p⟩)
    ∧ MPathElement.new DOT.bytes = .ok DOT
    ∧ MPathElement.new DOTDOT.bytes = .ok DOTDOT
    ∧ MPathElement.from_thrift ⟨DOT.bytes⟩ = .ok DOT
    ∧ MPathElement.from_thrift ⟨DOTDOT.bytes⟩ = .ok DOTDOT
    ∧ (∀ (p : MPath) (es : List MPathElement) (d : MPathElement), d.bytes ≠ [] →
        (p.join es).elements.count d = p.elements.count d + es.count d)
    ∧ (∀ (p : MPath) (n : Nat), 0 < n → n ≤ p.num_components →
        p.take_prefix_components n = .ok (some ⟨p.elements.take n⟩))
    ∧ (∀ (es : List MPathElement) (e : MPathElement),
        (MPath.mk (es ++ [e])).basename = some e)
    ∧ (∀ (es : List MPathElement) (e : MPathElement),
        (MPath.mk (es ++ [e])).split_dirname
          = some ((if es.isEmpty then none else some ⟨es⟩), e)) := by
  refine ⟨?_, rfl, rfl, rfl, rfl, ?_, ?_, ?_, ?_⟩
  · intro p h0 h1 h10 hdot
    have hseg : path_segments p ≠ [] := by
      rcases hdot with h | h <;> exact List.ne_nil_of_mem h
    exact MPath.new_eq_ok_segments p h0 h1 h10 hseg
  · intro p es d hd
    unfold MPath.join
    simp only [List.count_append]
    congr 1
    exact List.count_filter (by simpa [List.isEmpty_iff] using hd)
  · intro p n hn hle
    unfold MPath.take_prefix_components
    rw [if_neg (by omega), if_neg (by omega)]
  · intro es e
    unfold MPath.basename
    simp only [List.getLast?_concat]
  · intro es e
    unfold MPath.split_dirname
    simp only [List.getLast?_concat, List.dropLast_concat]
    by_cases he : es.isEmpty <;> simp [he]

/-- C9, instantiated: `foo/../bar` constructs with components
`foo`, `..`, `bar`; joining `..` onto `foo` keeps it; taking one prefix
component of `foo/bar` returns it verbatim. -/
theorem dot_segments_kept_verbatim_witness :
    MPath.new [102, 111, 111, 47, 46, 46, 47, 98, 97, 114]
      = .ok ⟨path_segments [102, 111, 111, 47, 46, 46, 47, 98, 97, 114]⟩
    ∧ (fooPath.join [DOTDOT]).elements.count DOTDOT
        = fooPath.elements.count DOTDOT + [DOTDOT].count DOTDOT
    ∧ fooBarPath.take_prefix_components 1 = .ok (some ⟨fooBarPath.elements.take 1⟩) :=
  ⟨dot_segments_kept_verbatim.1 [102, 111, 111, 47, 46, 46, 47, 98, 97, 114]
     (by decide) (by decide) (by decide) (Or.inr (by decide)),
   dot_segments_kept_verbatim.2.2.2.2.2.1 fooPath [DOTDOT] DOTDOT (by decide),
   dot_segments_kept_verbatim.2.2.2.2.2.2.1 fooBarPath 1 (by decide) (by decide)⟩

/-- C10: freezing and thawing an envelope are mutually inverse and change
no field. -/
theorem freeze_into_mut_inverse :
    (∀ m : HgChangesetEnvelopeMut, m.freeze.into_mut = m)
    ∧ (∀ e : HgChangesetEnvelope, e.into_mut.freeze = e) :=
  ⟨fun _ => rfl, fun _ => rfl⟩

end Mononoke
